import Mathlib

/-!
# Verification of the `iso-countries-utils` country-lookup core

Shallow embedding of `src/utils.ts`, the enriched-dataset builder
(`database.ts`) and `src/index.ts` of the `iso-countries-utils`
repository, together with proofs of the specified properties.

JavaScript strings are modelled as `List Char`; `toLowerCase` /
`toUpperCase` are modelled by the per-character Basic-Latin case maps
(`Char.toLower` / `Char.toUpper`), which agree with the JavaScript
functions on the ASCII alphabet the dataset uses.  `String.prototype.includes`
and `String.prototype.indexOf` are modelled by `jsIncludes` / `jsIndexOf`
below (`jsIndexOf` returns `-1 : Int` when the needle does not occur,
exactly as in JavaScript).  The ES2019-and-later `Array.prototype.sort`,
which is required to be a stable sort consistent with the comparator, is
modelled by `List.mergeSort`.  A JavaScript `Map` is modelled
observationally as a function `List Char → Option Country`, with
`Map.set` overwriting the previous binding of the key.
-/

/-- A JavaScript string, as a list of characters. -/
abbrev JsString := List Char

/-- Model of `String.prototype.toLowerCase` (Basic-Latin fragment). -/
def jsToLower (s : JsString) : JsString := s.map Char.toLower

/-- Model of `String.prototype.toUpperCase` (Basic-Latin fragment). -/
def jsToUpper (s : JsString) : JsString := s.map Char.toUpper

/-- `listLeads needle hay` is true when `hay` starts with `needle`. -/
def listLeads : JsString → JsString → Bool
  | [], _ => true
  | _ :: _, [] => false
  | a :: as, b :: bs => a == b && listLeads as bs

/-- Model of `String.prototype.indexOf`: the index of the first
occurrence of `needle` in `hay`, or `-1` if there is none. -/
def jsIndexOf : JsString → JsString → Int
  | [], needle => if listLeads needle [] then 0 else -1
  | a :: t, needle =>
    if listLeads needle (a :: t) then 0
    else
      let r := jsIndexOf t needle
      if r < 0 then -1 else r + 1

/-- Model of `String.prototype.includes`: `needle` occurs somewhere in
`hay`. -/
def jsIncludes : JsString → JsString → Bool
  | [], needle => listLeads needle []
  | a :: t, needle => listLeads needle (a :: t) || jsIncludes t needle

/-- A raw dataset row, as supplied by `raw-data.ts` (the static data
module): `{ name, alpha2, alpha3, numeric }`. -/
structure RawCountry where
  name : JsString
  alpha2 : JsString
  alpha3 : JsString
  numeric : JsString
deriving DecidableEq, Repr

/-- The public record shape (`Country` in `types.ts`): the raw fields
plus the derived `flag`. -/
structure Country where
  name : JsString
  alpha2 : JsString
  alpha3 : JsString
  numeric : JsString
  flag : JsString
deriving DecidableEq, Repr

/-- `getFlagEmoji` from `src/utils.ts`: uppercase the code, take each
character's code unit, add `127397`, and build the string of the
resulting code points. -/
def getFlagEmoji (alpha2 : JsString) : JsString :=
  (((jsToUpper alpha2).map (fun c => 127397 + c.toNat)).map Char.ofNat)

/-- `countries` from `database.ts`: the raw rows enriched with the
derived flag.  The whole development is parametric in the raw dataset
`raw`, which is static data not part of the core source. -/
def countries (raw : List RawCountry) : List Country :=
  raw.map (fun d =>
    { name := d.name, alpha2 := d.alpha2, alpha3 := d.alpha3,
      numeric := d.numeric, flag := getFlagEmoji d.alpha2 })

/-- Observational model of a JavaScript `Map` from strings to country
records. -/
def JsMap := JsString → Option Country

/-- A fresh `new Map()`. -/
def mapEmpty : JsMap := fun _ => none

/-- `Map.prototype.set`: binds `k` to `v`, overwriting any previous
binding of `k`. -/
def mapSet (m : JsMap) (k : JsString) (v : Country) : JsMap :=
  fun q => if q = k then some v else m q

/-- The `countries.forEach((country) => map.set(key country, country))`
construction loop from `src/index.ts`, for one of the three maps. -/
def buildIndex (key : Country → JsString) (cs : List Country) : JsMap :=
  cs.foldl (fun m c => mapSet m (key c) c) mapEmpty

/-- `alpha2Map` from `src/index.ts`. -/
def alpha2Map (raw : List RawCountry) : JsMap :=
  buildIndex (fun c => c.alpha2) (countries raw)

/-- `alpha3Map` from `src/index.ts`. -/
def alpha3Map (raw : List RawCountry) : JsMap :=
  buildIndex (fun c => c.alpha3) (countries raw)

/-- `numericMap` from `src/index.ts`. -/
def numericMap (raw : List RawCountry) : JsMap :=
  buildIndex (fun c => c.numeric) (countries raw)

/-- A `searchIndex` entry: `{ original, lowerName }`. -/
structure SearchEntry where
  original : Country
  lowerName : JsString
deriving DecidableEq, Repr

/-- `searchIndex` from `src/index.ts`:
`countries.map((country) => ({ original: country, lowerName: country.name.toLowerCase() }))`. -/
def searchIndex (raw : List RawCountry) : List SearchEntry :=
  (countries raw).map (fun country =>
    { original := country, lowerName := jsToLower country.name })

/-- `getCountryByAlpha2` from `src/index.ts`. -/
def getCountryByAlpha2 (raw : List RawCountry) (alpha2 : JsString) : Option Country :=
  alpha2Map raw (jsToUpper alpha2)

/-- `getCountryByAlpha3` from `src/index.ts`. -/
def getCountryByAlpha3 (raw : List RawCountry) (alpha3 : JsString) : Option Country :=
  alpha3Map raw (jsToUpper alpha3)

/-- `getCountryByNumeric` from `src/index.ts`. -/
def getCountryByNumeric (raw : List RawCountry) (numeric : JsString) : Option Country :=
  numericMap raw numeric

/-- `getEmojiByAlpha2` from `src/index.ts`: look the country up, then
project `flag` (`country?.flag` yields `undefined` when the lookup
failed). -/
def getEmojiByAlpha2 (raw : List RawCountry) (alpha2 : JsString) : Option JsString :=
  (getCountryByAlpha2 raw alpha2).map (fun c => c.flag)

/-- `getEmojiByAlpha3` from `src/index.ts`. -/
def getEmojiByAlpha3 (raw : List RawCountry) (alpha3 : JsString) : Option JsString :=
  (getCountryByAlpha3 raw alpha3).map (fun c => c.flag)

/-- `getEmojiByNumeric` from `src/index.ts`. -/
def getEmojiByNumeric (raw : List RawCountry) (numeric : JsString) : Option JsString :=
  (getCountryByNumeric raw numeric).map (fun c => c.flag)

/-- `getCountryByName` from `src/index.ts`: empty (falsy) input returns
`undefined`; otherwise the first record whose lower-cased name equals
the lower-cased input. -/
def getCountryByName (raw : List RawCountry) (name : JsString) : Option Country :=
  if name = [] then none
  else (countries raw).find? (fun country =>
    jsToLower country.name == jsToLower name)

/-- The comparator passed to `.sort` inside `searchByName`
(`query` is the already lower-cased search string). -/
def searchCmp (query : JsString) (a b : SearchEntry) : Int :=
  let indexA := jsIndexOf a.lowerName query
  let indexB := jsIndexOf b.lowerName query
  if indexA = indexB then (a.lowerName.length : Int) - (b.lowerName.length : Int)
  else indexA - indexB

/-- The boolean "less or equivalent" order induced by `searchCmp`,
under which a stable sort produces exactly the array `.sort` returns. -/
def searchLE (query : JsString) (a b : SearchEntry) : Bool :=
  decide (searchCmp query a b ≤ 0)

/-- `searchByName` from `src/index.ts`: empty (falsy) input returns
`[]`; otherwise filter the search index to entries containing the
lower-cased query, stable-sort by the comparator, and project the
original records. -/
def searchByName (raw : List RawCountry) (name : JsString) : List Country :=
  if name = [] then []
  else
    let query := jsToLower name
    ((((searchIndex raw).filter (fun item => jsIncludes item.lowerName query)).mergeSort
        (searchLE query)).map (fun item => item.original))

/-- `isValidAlpha2` from `src/index.ts`: `alpha2Map.has(code.toUpperCase())`. -/
def isValidAlpha2 (raw : List RawCountry) (code : JsString) : Bool :=
  (alpha2Map raw (jsToUpper code)).isSome

/-- `isValidAlpha3` from `src/index.ts`: `alpha3Map.has(code.toUpperCase())`. -/
def isValidAlpha3 (raw : List RawCountry) (code : JsString) : Bool :=
  (alpha3Map raw (jsToUpper code)).isSome

/-! ## Character-level facts about the case maps -/

/-- `Char.ofNat` of a valid code point decodes back to the same `Nat`. -/
theorem toNat_ofNat_of_valid {n : Nat} (h : n.isValidChar) :
    (Char.ofNat n).toNat = n := by
  simp [Char.ofNat, dif_pos h, Char.ofNatAux, Char.toNat, UInt32.toNat,
    BitVec.toNat_ofNatLt]

/-- Upper-casing after lower-casing agrees with upper-casing directly,
character by character. -/
theorem toUpper_toLower (c : Char) : c.toLower.toUpper = c.toUpper := by
  simp only [Char.toLower, Char.toUpper]
  by_cases h : c.toNat ≥ 65 ∧ c.toNat ≤ 90
  · rw [if_pos h]
    have hv : Nat.isValidChar (c.toNat + 32) := Or.inl (by omega)
    have ht : (Char.ofNat (c.toNat + 32)).toNat = c.toNat + 32 :=
      toNat_ofNat_of_valid hv
    rw [ht, if_pos (by omega), if_neg (by omega)]
    have h32 : c.toNat + 32 - 32 = c.toNat := by omega
    rw [h32, Char.ofNat_toNat]
  · rw [if_neg h]

/-- On whole strings: upper-casing a lower-cased string equals
upper-casing the original. -/
theorem jsToUpper_jsToLower (s : JsString) :
    jsToUpper (jsToLower s) = jsToUpper s := by
  simp only [jsToUpper, jsToLower, List.map_map]
  exact List.map_congr_left (fun c _ => toUpper_toLower c)

/-- Lower-casing does not change the length. -/
theorem length_jsToLower (s : JsString) : (jsToLower s).length = s.length :=
  List.length_map s Char.toLower

/-! ## Facts about `listLeads`, `jsIndexOf`, `jsIncludes` -/

theorem listLeads_refl (s : JsString) : listLeads s s = true := by
  induction s with
  | nil => rfl
  | cons a t ih => simp [listLeads, ih]

theorem listLeads_nil_iff (n : JsString) : listLeads n [] = true ↔ n = [] := by
  cases n <;> simp [listLeads]

theorem length_le_of_listLeads :
    ∀ {n h : JsString}, listLeads n h = true → n.length ≤ h.length
  | [], _, _ => by simp
  | _ :: _, [], hl => by simp [listLeads] at hl
  | a :: as, b :: bs, hl => by
    simp only [listLeads, Bool.and_eq_true, beq_iff_eq] at hl
    simpa using Nat.succ_le_succ (length_le_of_listLeads hl.2)

theorem eq_of_listLeads_of_length :
    ∀ {n h : JsString}, listLeads n h = true → n.length = h.length → n = h
  | [], [], _, _ => rfl
  | [], _ :: _, _, hlen => by simp at hlen
  | _ :: _, [], hl, _ => by simp [listLeads] at hl
  | a :: as, b :: bs, hl, hlen => by
    simp only [listLeads, Bool.and_eq_true, beq_iff_eq] at hl
    simp only [List.length_cons, Nat.succ.injEq] at hlen
    rw [hl.1, eq_of_listLeads_of_length hl.2 hlen]

theorem jsIncludes_of_listLeads {n h : JsString} (hl : listLeads n h = true) :
    jsIncludes h n = true := by
  cases h with
  | nil => simpa [jsIncludes] using hl
  | cons a t => simp [jsIncludes, hl]

theorem jsIncludes_refl (s : JsString) : jsIncludes s s = true :=
  jsIncludes_of_listLeads (listLeads_refl s)

theorem length_le_of_jsIncludes :
    ∀ {h n : JsString}, jsIncludes h n = true → n.length ≤ h.length
  | [], n, hi => by
    rw [jsIncludes, listLeads_nil_iff] at hi
    simp [hi]
  | a :: t, n, hi => by
    simp only [jsIncludes, Bool.or_eq_true] at hi
    rcases hi with hl | hr
    · exact length_le_of_listLeads hl
    · calc n.length ≤ t.length := length_le_of_jsIncludes hr
        _ ≤ (a :: t).length := by simp

theorem jsIndexOf_nonneg_iff :
    ∀ {h n : JsString}, 0 ≤ jsIndexOf h n ↔ jsIncludes h n = true
  | [], n => by
    simp only [jsIndexOf, jsIncludes]
    split <;> simp_all
  | a :: t, n => by
    simp only [jsIndexOf, jsIncludes]
    split
    · simp_all
    · next hnl =>
      have ih := @jsIndexOf_nonneg_iff t n
      simp only [Bool.or_eq_true]
      constructor
      · intro hge
        split at hge
        · omega
        · next hr => exact Or.inr (ih.mp (by omega))
      · intro hor
        rcases hor with hl | hr
        · exact absurd hl (by simp [hnl])
        · have := ih.mpr hr
          split <;> omega

theorem jsIndexOf_eq_zero_iff :
    ∀ {h n : JsString}, jsIndexOf h n = 0 ↔ listLeads n h = true
  | [], n => by
    simp only [jsIndexOf]
    split <;> simp_all
  | a :: t, n => by
    simp only [jsIndexOf]
    split
    · simp_all
    · next hnl =>
      constructor
      · intro h0
        split at h0 <;> omega
      · intro hc
        exact absurd hc hnl

theorem jsIndexOf_self (s : JsString) : jsIndexOf s s = 0 :=
  jsIndexOf_eq_zero_iff.mpr (listLeads_refl s)

/-! ## Semantics of the index maps -/

theorem buildIndex_foldl (key : Country → JsString) :
    ∀ (cs : List Country) (m : JsMap) (k : JsString),
      (cs.foldl (fun m c => mapSet m (key c) c) m) k
        = ((cs.reverse.find? (fun c => decide (key c = k))).or (m k))
  | [], m, k => by simp
  | c :: t, m, k => by
    simp only [List.foldl_cons, List.reverse_cons, List.find?_append]
    rw [buildIndex_foldl key t (mapSet m (key c) c) k, Option.or_assoc]
    congr 1
    rw [List.find?_cons]
    by_cases heq : key c = k
    · simp [mapSet, heq, Option.or]
    · have hne : ¬ k = key c := fun he => heq he.symm
      simp [mapSet, heq, hne, Option.or]

/-- The value an index map holds at key `k` is the *last* record in
dataset order whose key equals `k` (or none). -/
theorem buildIndex_eq (key : Country → JsString) (cs : List Country) (k : JsString) :
    buildIndex key cs k = cs.reverse.find? (fun c => decide (key c = k)) := by
  rw [buildIndex, buildIndex_foldl]
  show Option.or _ none = _
  exact Option.or_none

/-- With pairwise-distinct keys, two members of the dataset with the
same key coincide. -/
theorem eq_of_mem_of_key_eq {κ : Type} (key : Country → κ) {l : List Country}
    (hp : l.Pairwise (fun a b => key a ≠ key b)) :
    ∀ {x y : Country}, x ∈ l → y ∈ l → key x = key y → x = y := by
  induction l with
  | nil => intro x y hx _ _; exact absurd hx (List.not_mem_nil x)
  | cons a t ih =>
    intro x y hx hy hk
    rcases List.mem_cons.mp hx with rfl | hx'
    · rcases List.mem_cons.mp hy with rfl | hy'
      · rfl
      · exact absurd hk ((List.pairwise_cons.mp hp).1 y hy')
    · rcases List.mem_cons.mp hy with rfl | hy'
      · exact absurd hk.symm ((List.pairwise_cons.mp hp).1 x hx')
      · exact ih (List.pairwise_cons.mp hp).2 hx' hy' hk

/-- With pairwise-distinct keys, looking an index up at a member's key
returns exactly that member. -/
theorem buildIndex_self (key : Country → JsString) {l : List Country}
    (hu : l.Pairwise (fun a b => key a ≠ key b)) {r : Country} (hr : r ∈ l) :
    buildIndex key l (key r) = some r := by
  rw [buildIndex_eq]
  have hmem : r ∈ l.reverse := List.mem_reverse.mpr hr
  have hsome : (l.reverse.find? (fun c => decide (key c = key r))).isSome := by
    rw [List.find?_isSome]
    exact ⟨r, hmem, by simp⟩
  obtain ⟨x, hx⟩ := Option.isSome_iff_exists.mp hsome
  have hpx : key x = key r := by simpa using List.find?_some hx
  have hxmem : x ∈ l := List.mem_reverse.mp (List.mem_of_find?_eq_some hx)
  rw [hx, eq_of_mem_of_key_eq key hu hxmem hr hpx]

/-- A successful index lookup yields a member of the dataset whose key
is the looked-up key. -/
theorem buildIndex_some (key : Country → JsString) {l : List Country}
    {k : JsString} {r : Country} (h : buildIndex key l k = some r) :
    r ∈ l ∧ key r = k := by
  rw [buildIndex_eq] at h
  exact ⟨List.mem_reverse.mp (List.mem_of_find?_eq_some h),
    by simpa using List.find?_some h⟩

/-! ## The search pipeline -/

/-- The dataset records whose lower-cased name contains the
(lower-cased) query, in dataset order. -/
def searchMatches (raw : List RawCountry) (query : JsString) : List Country :=
  (countries raw).filter (fun c => jsIncludes (jsToLower c.name) query)

theorem filter_searchIndex_map (raw : List RawCountry) (query : JsString) :
    (((searchIndex raw).filter
        (fun it => jsIncludes it.lowerName query)).map (fun it => it.original))
      = searchMatches raw query := by
  rw [searchIndex, searchMatches, List.filter_map, List.map_map]
  have h1 : ((fun it : SearchEntry => jsIncludes it.lowerName query) ∘
      (fun country : Country =>
        ({ original := country, lowerName := jsToLower country.name } : SearchEntry)))
      = (fun c : Country => jsIncludes (jsToLower c.name) query) := rfl
  have h2 : ((fun it : SearchEntry => it.original) ∘
      (fun country : Country =>
        ({ original := country, lowerName := jsToLower country.name } : SearchEntry)))
      = (fun c : Country => c) := rfl
  rw [h1, h2, List.map_id']

theorem searchByName_eq (raw : List RawCountry) {name : JsString} (h : ¬ name = []) :
    searchByName raw name
      = (((searchIndex raw).filter
            (fun item => jsIncludes item.lowerName (jsToLower name))).mergeSort
          (searchLE (jsToLower name))).map (fun item => item.original) := by
  rw [searchByName, if_neg h]

theorem searchCmp_neg (query : JsString) (a b : SearchEntry) :
    searchCmp query b a = - searchCmp query a b := by
  simp only [searchCmp]
  by_cases h : jsIndexOf a.lowerName query = jsIndexOf b.lowerName query
  · rw [if_pos h, if_pos h.symm]
    omega
  · rw [if_neg h, if_neg (fun he => h he.symm)]
    omega

theorem searchLE_total (query : JsString) :
    ∀ a b, searchLE query a b || searchLE query b a := by
  intro a b
  simp only [searchLE, Bool.or_eq_true, decide_eq_true_eq]
  have := searchCmp_neg query a b
  omega

theorem searchLE_trans (query : JsString) :
    ∀ a b c, searchLE query a b → searchLE query b c → searchLE query a c := by
  intro a b c hab hbc
  simp only [searchLE, decide_eq_true_eq, searchCmp] at hab hbc ⊢
  split at hab <;> split at hbc <;> split <;> omega

/-- Position of the first occurrence of the (already lower-cased) query
in a record's lower-cased name. -/
def matchPos (query : JsString) (c : Country) : Int :=
  jsIndexOf (jsToLower c.name) query

/-- The spec's result order on records: earlier match position first,
ties broken by shorter name. -/
def rankLE (query : JsString) (c1 c2 : Country) : Prop :=
  matchPos query c1 < matchPos query c2 ∨
    (matchPos query c1 = matchPos query c2 ∧ c1.name.length ≤ c2.name.length)

instance (query : JsString) : DecidableRel (rankLE query) := fun a b => by
  unfold rankLE
  infer_instance

theorem lowerName_eq_of_mem_searchIndex {raw : List RawCountry} {it : SearchEntry}
    (h : it ∈ searchIndex raw) : it.lowerName = jsToLower it.original.name := by
  rw [searchIndex] at h
  obtain ⟨c, _, rfl⟩ := List.mem_map.mp h
  rfl

theorem rankLE_of_searchLE {query : JsString} {a b : SearchEntry}
    (ha : a.lowerName = jsToLower a.original.name)
    (hb : b.lowerName = jsToLower b.original.name)
    (h : searchLE query a b = true) : rankLE query a.original b.original := by
  simp only [searchLE, decide_eq_true_eq, searchCmp] at h
  rw [ha, hb, length_jsToLower, length_jsToLower] at h
  simp only [rankLE, matchPos]
  split at h <;> omega

/-- The search result list is sorted by ascending match position, ties
by ascending name length. -/
theorem searchByName_pairwise (raw : List RawCountry) (name : JsString) :
    (searchByName raw name).Pairwise (rankLE (jsToLower name)) := by
  by_cases h : name = []
  · rw [searchByName, if_pos h]
    exact List.Pairwise.nil
  · rw [searchByName_eq raw h]
    apply List.pairwise_map.mpr
    have hsorted :
        (((searchIndex raw).filter
            (fun item => jsIncludes item.lowerName (jsToLower name))).mergeSort
          (searchLE (jsToLower name))).Pairwise (searchLE (jsToLower name) · ·) :=
      List.sorted_mergeSort (searchLE_trans (jsToLower name))
        (searchLE_total (jsToLower name)) _
    apply List.Pairwise.imp_of_mem ?_ hsorted
    intro a b ha hb hle
    have ha' : a ∈ searchIndex raw :=
      List.mem_of_mem_filter (List.mem_mergeSort.mp ha)
    have hb' : b ∈ searchIndex raw :=
      List.mem_of_mem_filter (List.mem_mergeSort.mp hb)
    exact rankLE_of_searchLE (lowerName_eq_of_mem_searchIndex ha')
      (lowerName_eq_of_mem_searchIndex hb') hle

/-- Membership in the search result: exactly the dataset records whose
lower-cased name contains the lower-cased query. -/
theorem mem_searchByName {raw : List RawCountry} {name : JsString}
    (h : ¬ name = []) (c : Country) :
    c ∈ searchByName raw name ↔
      c ∈ countries raw ∧ jsIncludes (jsToLower c.name) (jsToLower name) = true := by
  rw [searchByName_eq raw h]
  constructor
  · intro hc
    obtain ⟨it, hit, rfl⟩ := List.mem_map.mp hc
    have hit' := List.mem_mergeSort.mp hit
    have h1 := List.mem_of_mem_filter hit'
    have h2 := (List.mem_filter.mp hit').2
    have hl := lowerName_eq_of_mem_searchIndex h1
    constructor
    · rw [searchIndex] at h1
      obtain ⟨d, hd, he⟩ := List.mem_map.mp h1
      rw [← he]
      exact hd
    · rw [← hl]
      exact h2
  · intro hc
    apply List.mem_map.mpr
    refine ⟨⟨c, jsToLower c.name⟩, ?_, rfl⟩
    apply List.mem_mergeSort.mpr
    apply List.mem_filter.mpr
    exact ⟨List.mem_map.mpr ⟨c, hc.1, rfl⟩, hc.2⟩

/-- Whether a record has exactly the given match position and name
length (the sort key of `searchByName`). -/
def searchKeyIs (query : JsString) (i : Int) (n : Nat) (c : Country) : Bool :=
  decide (matchPos query c = i) && decide (c.name.length = n)

/-- Stability: among records tied on match position and name length,
the result preserves dataset order (the result filtered to one sort key
equals the dataset-ordered match list filtered to that key). -/
theorem searchByName_stable (raw : List RawCountry) {name : JsString}
    (h : ¬ name = []) (i : Int) (n : Nat) :
    (searchByName raw name).filter (fun c => searchKeyIs (jsToLower name) i n c)
      = (searchMatches raw (jsToLower name)).filter
          (fun c => searchKeyIs (jsToLower name) i n c) := by
  rw [searchByName_eq raw h, ← filter_searchIndex_map raw (jsToLower name)]
  rw [List.filter_map, List.filter_map]
  congr 1
  have hmemlow : ∀ it ∈ (searchIndex raw).filter
      (fun item => jsIncludes item.lowerName (jsToLower name)),
      it.lowerName = jsToLower it.original.name := fun it hit =>
    lowerName_eq_of_mem_searchIndex (List.mem_of_mem_filter hit)
  have hall : ∀ a ∈ ((searchIndex raw).filter
        (fun item => jsIncludes item.lowerName (jsToLower name))).filter
        ((fun c => searchKeyIs (jsToLower name) i n c) ∘ (fun it => it.original)),
      ∀ b ∈ ((searchIndex raw).filter
        (fun item => jsIncludes item.lowerName (jsToLower name))).filter
        ((fun c => searchKeyIs (jsToLower name) i n c) ∘ (fun it => it.original)),
      searchLE (jsToLower name) a b = true := by
    intro a ha b hb
    have ha' := List.mem_filter.mp ha
    have hb' := List.mem_filter.mp hb
    have hka := ha'.2
    have hkb := hb'.2
    simp only [Function.comp, searchKeyIs, Bool.and_eq_true, decide_eq_true_eq,
      matchPos] at hka hkb
    have hla := hmemlow a ha'.1
    have hlb := hmemlow b hb'.1
    simp only [searchLE, decide_eq_true_eq, searchCmp]
    rw [hla, hlb, length_jsToLower, length_jsToLower, hka.1, hkb.1, hka.2, hkb.2]
    simp
  have hpair := List.pairwise_of_forall_mem_list hall
  have hsub := List.sublist_mergeSort (searchLE_trans (jsToLower name))
    (searchLE_total (jsToLower name)) hpair (List.filter_sublist _)
  have hself : (((searchIndex raw).filter
        (fun item => jsIncludes item.lowerName (jsToLower name))).filter
        ((fun c => searchKeyIs (jsToLower name) i n c) ∘ (fun it => it.original))).filter
        ((fun c => searchKeyIs (jsToLower name) i n c) ∘ (fun it => it.original))
      = ((searchIndex raw).filter
          (fun item => jsIncludes item.lowerName (jsToLower name))).filter
          ((fun c => searchKeyIs (jsToLower name) i n c) ∘ (fun it => it.original)) :=
    List.filter_eq_self.mpr (fun a ha => (List.mem_filter.mp ha).2)
  have hfsub := hsub.filter
    ((fun c => searchKeyIs (jsToLower name) i n c) ∘ (fun it => it.original))
  rw [hself] at hfsub
  have hperm := (List.mergeSort_perm ((searchIndex raw).filter
      (fun item => jsIncludes item.lowerName (jsToLower name)))
      (searchLE (jsToLower name))).filter
    ((fun c => searchKeyIs (jsToLower name) i n c) ∘ (fun it => it.original))
  exact (hfsub.eq_of_length hperm.length_eq.symm).symm

/-! ## Concrete sample data (the spec's scenario records), used by the
witnesses -/

/-- A sample raw dataset containing the concrete records the spec's
scenarios name. -/
def sampleRaw : List RawCountry :=
  [ { name := "Taiwan".toList, alpha2 := "TW".toList,
      alpha3 := "TWN".toList, numeric := "158".toList },
    { name := "United States of America".toList, alpha2 := "US".toList,
      alpha3 := "USA".toList, numeric := "840".toList },
    { name := "Japan".toList, alpha2 := "JP".toList,
      alpha3 := "JPN".toList, numeric := "392".toList },
    { name := "Poland".toList, alpha2 := "PL".toList,
      alpha3 := "POL".toList, numeric := "616".toList },
    { name := "Finland".toList, alpha2 := "FI".toList,
      alpha3 := "FIN".toList, numeric := "246".toList },
    { name := "Iceland".toList, alpha2 := "IS".toList,
      alpha3 := "ISL".toList, numeric := "352".toList },
    { name := "South Korea".toList, alpha2 := "KR".toList,
      alpha3 := "KOR".toList, numeric := "410".toList },
    { name := "North Korea".toList, alpha2 := "KP".toList,
      alpha3 := "PRK".toList, numeric := "408".toList } ]

def twLower : JsString := "tw".toList

def twAlpha2 : JsString := "TW".toList

def zzStr : JsString := "zz".toList

def landQ : JsString := "land".toList

def taiwanUpper : JsString := "TAIWAN".toList

/-- The enriched Taiwan record of the sample dataset. -/
def twCountry : Country :=
  { name := "Taiwan".toList, alpha2 := twAlpha2, alpha3 := "TWN".toList,
    numeric := "158".toList, flag := getFlagEmoji twAlpha2 }

/-! ## The claims -/

/-- C2: `searchByName` on an empty query returns the empty sequence,
and otherwise returns exactly the dataset records whose lower-cased
name contains the lower-cased query as a substring. -/
theorem c2_searchByName_members (raw : List RawCountry) (name : JsString)
    (c : Country) :
    searchByName raw [] = [] ∧
    (c ∈ searchByName raw name ↔
      name ≠ [] ∧ c ∈ countries raw ∧
        jsIncludes (jsToLower c.name) (jsToLower name) = true) := by
  constructor
  · rw [searchByName, if_pos rfl]
  · by_cases h : name = []
    · subst h
      rw [searchByName, if_pos rfl]
      simp
    · constructor
      · intro hc
        exact ⟨h, (mem_searchByName h c).mp hc⟩
      · intro hc
        exact (mem_searchByName h c).mpr hc.2

/-- C3: `getCountryByName` returns the absence value on empty input;
otherwise it returns the first record in dataset order whose name
matches the input case-insensitively and exactly, and the absence value
when no record's name matches. -/
theorem c3_getCountryByName_spec (raw : List RawCountry) (name : JsString)
    (r : Country) :
    getCountryByName raw [] = none ∧
    (getCountryByName raw name = some r ↔
      name ≠ [] ∧ jsToLower r.name = jsToLower name ∧
        ∃ pre post, countries raw = pre ++ r :: post ∧
          ∀ c ∈ pre, jsToLower c.name ≠ jsToLower name) ∧
    (getCountryByName raw name = none ↔
      name = [] ∨ ∀ c ∈ countries raw, jsToLower c.name ≠ jsToLower name) := by
  refine ⟨by rw [getCountryByName, if_pos rfl], ?_, ?_⟩
  · by_cases h : name = []
    · subst h
      rw [getCountryByName, if_pos rfl]
      simp
    · rw [getCountryByName, if_neg h, List.find?_eq_some]
      simp only [beq_iff_eq, Bool.not_eq_true, ne_eq, h, not_false_iff, true_and]
      constructor
      · rintro ⟨hpr, pre, post, hsplit, hpre⟩
        exact ⟨hpr, pre, post, hsplit, fun c hc he =>
          by simpa [he] using hpre c hc⟩
      · rintro ⟨hpr, pre, post, hsplit, hpre⟩
        refine ⟨hpr, pre, post, hsplit, fun c hc => ?_⟩
        have := hpre c hc
        simpa using this
  · by_cases h : name = []
    · subst h
      rw [getCountryByName, if_pos rfl]
      simp
    · rw [getCountryByName, if_neg h, List.find?_eq_none]
      simp [h]

/-- C4: both alpha-code lookups are invariant under lower-casing their
input (they normalize to uppercase before consulting the index). -/
theorem c4_lookup_case_insensitive (raw : List RawCountry) (code : JsString) :
    getCountryByAlpha2 raw (jsToLower code) = getCountryByAlpha2 raw code ∧
    getCountryByAlpha3 raw (jsToLower code) = getCountryByAlpha3 raw code := by
  rw [getCountryByAlpha2, getCountryByAlpha2, getCountryByAlpha3,
    getCountryByAlpha3, jsToUpper_jsToLower]
  exact ⟨rfl, rfl⟩

/-- C6: the validity predicates are true exactly when the corresponding
lookup succeeds. -/
theorem c6_isValid_iff (raw : List RawCountry) (code : JsString) :
    (isValidAlpha2 raw code = true ↔ getCountryByAlpha2 raw code ≠ none) ∧
    (isValidAlpha3 raw code = true ↔ getCountryByAlpha3 raw code ≠ none) := by
  constructor
  · rw [isValidAlpha2, getCountryByAlpha2]
    exact Option.isSome_iff_ne_none
  · rw [isValidAlpha3, getCountryByAlpha3]
    exact Option.isSome_iff_ne_none

/-- C7: the emoji getters return exactly the `flag` field of the record
found by the corresponding country lookup, and propagate its absence
value. -/
theorem c7_emoji_delegates (raw : List RawCountry) (code : JsString) :
    (∀ r, getCountryByAlpha2 raw code = some r →
      getEmojiByAlpha2 raw code = some r.flag) ∧
    (getCountryByAlpha2 raw code = none → getEmojiByAlpha2 raw code = none) ∧
    (∀ r, getCountryByAlpha3 raw code = some r →
      getEmojiByAlpha3 raw code = some r.flag) ∧
    (getCountryByAlpha3 raw code = none → getEmojiByAlpha3 raw code = none) ∧
    (∀ r, getCountryByNumeric raw code = some r →
      getEmojiByNumeric raw code = some r.flag) ∧
    (getCountryByNumeric raw code = none → getEmojiByNumeric raw code = none) := by
  refine ⟨fun r h => ?_, fun h => ?_, fun r h => ?_, fun h => ?_,
    fun r h => ?_, fun h => ?_⟩
  · rw [getEmojiByAlpha2, h]; rfl
  · rw [getEmojiByAlpha2, h]; rfl
  · rw [getEmojiByAlpha3, h]; rfl
  · rw [getEmojiByAlpha3, h]; rfl
  · rw [getEmojiByNumeric, h]; rfl
  · rw [getEmojiByNumeric, h]; rfl

theorem c7_witness :
    getEmojiByAlpha2 sampleRaw twLower = some twCountry.flag ∧
    getEmojiByAlpha2 sampleRaw zzStr = none :=
  ⟨(c7_emoji_delegates sampleRaw twLower).1 twCountry (by decide),
   (c7_emoji_delegates sampleRaw zzStr).2.1 (by decide)⟩

/-- C1: for every non-empty query, the `searchByName` result is sorted
by ascending index of the first occurrence of the lower-cased query in
the name, ties broken by ascending name length, and entries tied on
both criteria keep their dataset relative order (stability, stated as:
restricting the result to any one sort key yields exactly the
dataset-ordered match list restricted to that key). -/
theorem c1_searchByName_sorted_stable (raw : List RawCountry) (name : JsString)
    (hq : name ≠ []) :
    (searchByName raw name).Pairwise (rankLE (jsToLower name)) ∧
    ∀ (i : Int) (n : Nat),
      (searchByName raw name).filter (fun c => searchKeyIs (jsToLower name) i n c)
        = (searchMatches raw (jsToLower name)).filter
            (fun c => searchKeyIs (jsToLower name) i n c) :=
  ⟨searchByName_pairwise raw name, fun i n => searchByName_stable raw hq i n⟩

theorem c1_witness :
    (searchByName sampleRaw landQ).Pairwise (rankLE (jsToLower landQ)) ∧
    (searchByName sampleRaw landQ).filter
        (fun c => searchKeyIs (jsToLower landQ) 2 6 c)
      = (searchMatches sampleRaw (jsToLower landQ)).filter
          (fun c => searchKeyIs (jsToLower landQ) 2 6 c) :=
  ⟨(c1_searchByName_sorted_stable sampleRaw landQ (by decide)).1,
   (c1_searchByName_sorted_stable sampleRaw landQ (by decide)).2 2 6⟩

/-- C5: assuming the dataset's `alpha3` and `numeric` fields are unique
and its `alpha3` codes are stored uppercase (the spec's dataset
invariants), the record found via alpha-2 is also found via its own
`alpha3` and `numeric` fields: all three indexes reach the same
record. -/
theorem c5_indexes_agree (raw : List RawCountry) (code : JsString) (r : Country)
    (h : getCountryByAlpha2 raw code = some r)
    (hu3 : (countries raw).Pairwise (fun a b => a.alpha3 ≠ b.alpha3))
    (hun : (countries raw).Pairwise (fun a b => a.numeric ≠ b.numeric))
    (hup : ∀ c ∈ countries raw, jsToUpper c.alpha3 = c.alpha3) :
    getCountryByAlpha3 raw r.alpha3 = some r ∧
    getCountryByNumeric raw r.numeric = some r := by
  rw [getCountryByAlpha2, alpha2Map] at h
  have hmem := (buildIndex_some _ h).1
  constructor
  · rw [getCountryByAlpha3, alpha3Map, hup r hmem]
    exact buildIndex_self (fun c => c.alpha3) hu3 hmem
  · rw [getCountryByNumeric, numericMap]
    exact buildIndex_self (fun c => c.numeric) hun hmem

theorem c5_witness :
    getCountryByAlpha3 sampleRaw twCountry.alpha3 = some twCountry ∧
    getCountryByNumeric sampleRaw twCountry.numeric = some twCountry :=
  c5_indexes_agree sampleRaw twLower twCountry (by decide) (by decide)
    (by decide) (by decide)

/-- C8: on a two-letter alphabetic code, the flag derivation
concatenates, letter by letter, the code point `127397 +` the
uppercased letter's code unit; and every enriched record's `flag` field
is the flag derivation of its `alpha2` field. -/
theorem c8_flag_derivation (raw : List RawCountry) (c1 c2 : Char)
    (_h1 : c1.isAlpha = true) (_h2 : c2.isAlpha = true) :
    getFlagEmoji [c1, c2]
      = [Char.ofNat (127397 + c1.toUpper.toNat),
         Char.ofNat (127397 + c2.toUpper.toNat)] ∧
    ∀ c ∈ countries raw, c.flag = getFlagEmoji c.alpha2 := by
  constructor
  · rfl
  · intro c hc
    rw [countries] at hc
    obtain ⟨d, _, rfl⟩ := List.mem_map.mp hc
    rfl

theorem c8_witness :
    getFlagEmoji ['t', 'w']
      = [Char.ofNat (127397 + 't'.toUpper.toNat),
         Char.ofNat (127397 + 'w'.toUpper.toNat)] ∧
    ∀ c ∈ countries sampleRaw, c.flag = getFlagEmoji c.alpha2 :=
  c8_flag_derivation sampleRaw 't' 'w' (by decide) (by decide)

/-- C9: each code index holds, at every key, the *last* record in
dataset order carrying that key (insertion in dataset order with
overwrite-last-wins), and the search index pairs each dataset record,
in dataset order, with its lower-cased name. -/
theorem c9_index_construction (raw : List RawCountry) (k : JsString) :
    alpha2Map raw k
      = (countries raw).reverse.find? (fun c => decide (c.alpha2 = k)) ∧
    alpha3Map raw k
      = (countries raw).reverse.find? (fun c => decide (c.alpha3 = k)) ∧
    numericMap raw k
      = (countries raw).reverse.find? (fun c => decide (c.numeric = k)) ∧
    (searchIndex raw).map (fun e => e.original) = countries raw ∧
    ∀ e ∈ searchIndex raw, e.lowerName = jsToLower e.original.name := by
  refine ⟨buildIndex_eq _ _ _, buildIndex_eq _ _ _, buildIndex_eq _ _ _, ?_, ?_⟩
  · rw [searchIndex, List.map_map]
    have h2 : ((fun e : SearchEntry => e.original) ∘
        (fun country : Country =>
          ({ original := country, lowerName := jsToLower country.name } : SearchEntry)))
        = (fun c : Country => c) := rfl
    rw [h2, List.map_id']
  · exact fun e he => lowerName_eq_of_mem_searchIndex he

/-- C10: when `getCountryByName` finds a record and (lower-cased) names
are unique in the dataset, that record is the first element of the
`searchByName` result for the same query: the exact match has
occurrence index 0 and minimal name length, so it ranks first. -/
theorem c10_exact_match_ranks_first (raw : List RawCountry) (name : JsString)
    (r : Country) (hr : getCountryByName raw name = some r)
    (huniq : (countries raw).Pairwise
      (fun a b => jsToLower a.name ≠ jsToLower b.name)) :
    ∃ rest, searchByName raw name = r :: rest := by
  have hne : ¬ name = [] := by
    intro he
    rw [getCountryByName, if_pos he] at hr
    exact Option.noConfusion hr
  rw [getCountryByName, if_neg hne] at hr
  have hrmem := List.mem_of_find?_eq_some hr
  have hrlow : jsToLower r.name = jsToLower name := by
    simpa using List.find?_some hr
  have hrin : r ∈ searchByName raw name := by
    rw [mem_searchByName hne]
    refine ⟨hrmem, ?_⟩
    rw [hrlow]
    exact jsIncludes_refl _
  cases hres : searchByName raw name with
  | nil =>
    rw [hres] at hrin
    exact absurd hrin (List.not_mem_nil r)
  | cons h0 rest =>
    rw [hres] at hrin
    have h0eq : h0 = r := by
      rcases List.mem_cons.mp hrin with hcase | hrtl
      · exact hcase.symm
      · have hpair := searchByName_pairwise raw name
        rw [hres] at hpair
        have hrank := (List.pairwise_cons.mp hpair).1 r hrtl
        have h0in : h0 ∈ searchByName raw name := by
          rw [hres]
          exact List.mem_cons_self h0 rest
        rw [mem_searchByName hne] at h0in
        obtain ⟨h0mem, h0inc⟩ := h0in
        have hq0 : matchPos (jsToLower name) r = 0 := by
          rw [matchPos, hrlow]
          exact jsIndexOf_self _
        have h0nonneg : 0 ≤ matchPos (jsToLower name) h0 :=
          jsIndexOf_nonneg_iff.mpr h0inc
        have h0len : name.length ≤ h0.name.length := by
          have := length_le_of_jsIncludes h0inc
          rwa [length_jsToLower, length_jsToLower] at this
        have hrlen : r.name.length = name.length := by
          have := congrArg List.length hrlow
          rwa [length_jsToLower, length_jsToLower] at this
        unfold rankLE at hrank
        rcases hrank with hlt | ⟨heq, hle⟩
        · rw [hq0] at hlt
          omega
        · rw [hq0] at heq
          have hlen0 : h0.name.length = name.length := by omega
          have hzero : listLeads (jsToLower name) (jsToLower h0.name) = true := by
            have := jsIndexOf_eq_zero_iff.mp heq
            exact this
          have hlift : jsToLower h0.name = jsToLower name := by
            have hlen' : (jsToLower name).length = (jsToLower h0.name).length := by
              rw [length_jsToLower, length_jsToLower, hlen0]
            exact (eq_of_listLeads_of_length hzero hlen').symm
          exact eq_of_mem_of_key_eq (fun c => jsToLower c.name) huniq h0mem hrmem
            (hlift.trans hrlow.symm)
    exact ⟨rest, by rw [h0eq]⟩

theorem c10_witness :
    ∃ rest, searchByName sampleRaw taiwanUpper = twCountry :: rest :=
  c10_exact_match_ranks_first sampleRaw taiwanUpper twCountry
    (by decide) (by decide)
